import Mathlib

/-!
Verification of the ledger integrity and reconciliation engine of the
IPFS file-sharing repository (source files `src/core/blockchain.py` and
`ipfs_file_manager.py`).

Embedding conventions:

* Payloads and parsed JSON documents are modelled by `JValue` (strings,
  numbers, booleans, arrays, objects as association lists).  JSON numbers
  are modelled as `Int`; the source stores float timestamps, but no part
  of the verified logic inspects their fractional part.
* `Block.calculate_hash` in the source computes
  `sha256(json.dumps(block_data, sort_keys=True))`.  The composite
  `json.dumps(sort_keys=True) ∘ build-dict` is injective on, and
  determined by, the canonical form of the five hashed fields
  (index, timestamp, recursively key-sorted payload, previous_hash,
  nonce).  We therefore factor the digest as an abstract function
  `sha : HashInput → String` applied to that canonical form
  (`Block.hashInput`), and quantify every theorem over `sha`.
  Key sorting (`json.dumps(sort_keys=True)`) is modelled by `canonJ`.
* The unbounded proof-of-work loop of `mine_block` is modelled with
  explicit fuel; every integrity invariant proved here holds for every
  fuel value.  With difficulty 0 (the repository default) the loop is a
  no-op, exactly as in the source.
* Python exceptions are modelled by `Except PyErr`; `PyErr` distinguishes
  the exception classes that the source catches (`ValueError`,
  `json.JSONDecodeError`) from the ones it does not (`KeyError`, ...).
  Where the Python code would store a value of unexpected dynamic type in
  a typed field (e.g. a non-integer in `index` while deserializing), the
  model reports a `typeError` instead; no theorem or counterexample below
  exercises such a state.
-/

/-- JSON-like values: the dynamic payload/metadata type of the source.
Objects are association lists in insertion order, as built by the
application code; `json.dumps(sort_keys=True)` later orders the keys. -/
inductive JValue where
  | jstr (s : String)
  | jint (n : Int)
  | jbool (b : Bool)
  | jarr (items : List JValue)
  | jobj (entries : List (String × JValue))
deriving Repr

/-- Key order used by `sort_keys=True`: compare entry keys. -/
def keyLe (a b : String × JValue) : Prop := a.1 ≤ b.1

instance : DecidableRel keyLe := fun a b => inferInstanceAs (Decidable (a.1 ≤ b.1))

instance : IsTotal (String × JValue) keyLe := ⟨fun a b => le_total a.1 b.1⟩

instance : IsTrans (String × JValue) keyLe := ⟨fun _ _ _ h1 h2 => le_trans h1 h2⟩

/-- Strict key order, used to show sorted association lists with distinct
keys are unique. -/
def keyLt (a b : String × JValue) : Prop := a.1 < b.1

instance : IsAntisymm (String × JValue) keyLt :=
  ⟨fun _ _ h1 h2 => absurd h1 (lt_asymm h2)⟩

/-- Sort object entries by key, as `json.dumps(sort_keys=True)` does. -/
def sortByKey (l : List (String × JValue)) : List (String × JValue) :=
  l.insertionSort keyLe

mutual

/-- Canonical form of a JSON value: object keys recursively sorted.
`json.dumps(v, sort_keys=True)` is determined by, and injective on,
`canonJ v` for values representable as Python dict trees. -/
def canonJ : JValue → JValue
  | .jstr s => .jstr s
  | .jint n => .jint n
  | .jbool b => .jbool b
  | .jarr items => .jarr (canonL items)
  | .jobj entries => .jobj (sortByKey (canonKV entries))

/-- Canonicalize every element of a JSON array (array order is kept). -/
def canonL : List JValue → List JValue
  | [] => []
  | v :: rest => canonJ v :: canonL rest

/-- Canonicalize every value of an object entry list. -/
def canonKV : List (String × JValue) → List (String × JValue)
  | [] => []
  | (k, v) :: rest => (k, canonJ v) :: canonKV rest

end

mutual

/-- Logical identity of JSON values as Python `dict` trees: equal scalars
and arrays, and objects whose (distinct) keys carry equivalent values but
may have been inserted in a different order. -/
inductive JEquiv : JValue → JValue → Prop where
  | refl (v : JValue) : JEquiv v v
  | obj {l1 l2 : List (String × JValue)} :
      KVEquiv l1 l2 → (l1.map Prod.fst).Nodup → JEquiv (.jobj l1) (.jobj l2)

/-- Entry lists related by reordering insertions and by replacing values
with equivalent ones. -/
inductive KVEquiv : List (String × JValue) → List (String × JValue) → Prop where
  | nil : KVEquiv [] []
  | cons (k : String) {v w : JValue} {t1 t2 : List (String × JValue)} :
      JEquiv v w → KVEquiv t1 t2 → KVEquiv ((k, v) :: t1) ((k, w) :: t2)
  | swap (k1 k2 : String) (v1 v2 : JValue) (t : List (String × JValue)) :
      KVEquiv ((k1, v1) :: (k2, v2) :: t) ((k2, v2) :: (k1, v1) :: t)
  | trans {l1 l2 l3 : List (String × JValue)} :
      KVEquiv l1 l2 → KVEquiv l2 l3 → KVEquiv l1 l3

end

/-- The five fields hashed by `Block.calculate_hash`, with the payload in
canonical (recursively key-sorted) form.  `json.dumps(sort_keys=True)` of
the source's `block_data` dict is determined by and injective on this
record, so the SHA-256 digest of the source factors through it. -/
structure HashInput where
  index : Int
  timestamp : Int
  data : JValue
  previous_hash : String
  nonce : Int

/-- A single block, as in `Block.__init__` plus the `hash` field. -/
structure Block where
  index : Int
  timestamp : Int
  data : JValue
  previous_hash : String
  nonce : Int
  hash : String

/-- The digest input of a block: its five non-hash fields, payload
canonicalized (modelling `json.dumps(block_data, sort_keys=True)`). -/
def Block.hashInput (b : Block) : HashInput :=
  ⟨b.index, b.timestamp, canonJ b.data, b.previous_hash, b.nonce⟩

/-- `Block.calculate_hash`: digest of the block's current contents.  The
digest function `sha` (SHA-256 in the source) is an abstract parameter. -/
def Block.calculate_hash (sha : HashInput → String) (b : Block) : String :=
  sha b.hashInput

/-- `Block.__init__(index, timestamp, data, previous_hash)`: nonce starts
at 0 and `hash` is set to the freshly computed digest. -/
def Block.init (sha : HashInput → String) (index timestamp : Int) (data : JValue)
    (previous_hash : String) : Block :=
  let b : Block := ⟨index, timestamp, data, previous_hash, 0, ""⟩
  { b with hash := b.calculate_hash sha }

/-- Python's `"0" * difficulty` (empty for non-positive counts). -/
def mineTarget (d : Int) : String := String.mk (List.replicate d.toNat '0')

/-- Python's `hash[:difficulty]` slice, including the negative-index case. -/
def pySliceTo (s : String) (d : Int) : String :=
  if 0 ≤ d then s.take d.toNat else s.take (s.length - (-d).toNat)

/-- The `while` loop body of `Block.mine_block`, with explicit fuel
bounding the number of iterations (the source loop is unbounded; every
property proved below holds for every fuel value). -/
def Block.mineLoop (sha : HashInput → String) (d : Int) : Nat → Block → Block
  | 0, b => b
  | fuel + 1, b =>
      if pySliceTo b.hash d = mineTarget d then b
      else
        let b1 : Block := { b with nonce := b.nonce + 1 }
        Block.mineLoop sha d fuel { b1 with hash := b1.calculate_hash sha }

/-- `Block.mine_block(difficulty)`: immediate return when difficulty is 0,
otherwise scan nonces until the digest has the required prefix. -/
def Block.mine_block (sha : HashInput → String) (d : Int) (fuel : Nat) (b : Block) : Block :=
  if d = 0 then b else Block.mineLoop sha d fuel b

/-- `Block.to_dict`: the serialized entry record, in source field order. -/
def Block.to_dict (b : Block) : JValue :=
  .jobj [("index", .jint b.index), ("timestamp", .jint b.timestamp),
         ("data", b.data), ("previous_hash", .jstr b.previous_hash),
         ("nonce", .jint b.nonce), ("hash", .jstr b.hash)]

/-- Python exception classes relevant to the sources.  The load path
catches only `valueError` and `jsonDecodeError`; `sync_from_peer` catches
everything. -/
inductive PyErr where
  | keyError (key : String)
  | typeError (msg : String)
  | valueError (msg : String)
  | jsonDecodeError (msg : String)
  | attributeError (msg : String)
  | indexError (msg : String)

/-- `str(e)` of the modelled exception (Python renders `KeyError('k')` as
`'k'`). -/
def PyErr.msg : PyErr → String
  | .keyError k => "'" ++ k ++ "'"
  | .typeError m => m
  | .valueError m => m
  | .jsonDecodeError m => m
  | .attributeError m => m
  | .indexError m => m

/-- Object lookup `d[k]` on a parsed JSON value: `KeyError` when the key
is absent, `TypeError` when the value is not an object. -/
def jGetItem (j : JValue) (k : String) : Except PyErr JValue :=
  match j with
  | .jobj l =>
      match l.find? (fun p => p.1 = k) with
      | some p => .ok p.2
      | none => .error (.keyError k)
  | _ => .error (.typeError "value is not subscriptable by string")

/-- Coerce a JSON value into the typed `Int` fields of the model (the
Python source would store any dynamic value; see the header note). -/
def jAsInt : JValue → Except PyErr Int
  | .jint n => .ok n
  | _ => .error (.typeError "expected an integer value")

/-- Coerce a JSON value into the typed `String` fields of the model. -/
def jAsStr : JValue → Except PyErr String
  | .jstr s => .ok s
  | _ => .error (.typeError "expected a string value")

/-- `Block.from_dict`: build the block through the constructor (which
recomputes a digest), then overwrite `nonce` and `hash` from the record.
Key lookups fail with `KeyError` exactly as the source would. -/
def Block.from_dict (sha : HashInput → String) (j : JValue) : Except PyErr Block := do
  let index ← jGetItem j "index" >>= jAsInt
  let timestamp ← jGetItem j "timestamp" >>= jAsInt
  let data ← jGetItem j "data"
  let previous_hash ← jGetItem j "previous_hash" >>= jAsStr
  let b := Block.init sha index timestamp data previous_hash
  let nonce ← jGetItem j "nonce" >>= jAsInt
  let hash ← jGetItem j "hash" >>= jAsStr
  .ok { b with nonce := nonce, hash := hash }

/-- The ledger: difficulty plus the ordered block list. -/
structure Blockchain where
  difficulty : Int
  chain : List Block

/-- Genesis payload `{"message": "Genesis Block"}`. -/
def genesisData : JValue := .jobj [("message", .jstr "Genesis Block")]

/-- Stand-in for `chain[-1]` on an empty chain (the source would raise
`IndexError`; every chain reachable through the constructor is
non-empty, so the stand-in value is never observed there). -/
def dummyBlock : Block := ⟨0, 0, genesisData, "0", 0, ""⟩

/-- `Blockchain.__init__(difficulty)` plus `create_genesis_block`: a
fresh ledger holding one sealed genesis block with `previous_hash = "0"`.
`ts` is the external `time.time()` input. -/
def Blockchain.create (sha : HashInput → String) (difficulty : Int) (ts : Int)
    (fuel : Nat) : Blockchain :=
  let genesis := (Block.init sha 0 ts genesisData "0").mine_block sha difficulty fuel
  ⟨difficulty, [genesis]⟩

/-- `Blockchain.get_latest_block`: `chain[-1]`. -/
def Blockchain.get_latest_block (bc : Blockchain) : Block :=
  bc.chain.getLastD dummyBlock

/-- `len(blockchain)`. -/
def Blockchain.len (bc : Blockchain) : Nat := bc.chain.length

/-- `Blockchain.add_block(data)`: link a new sealed block to the latest
block's hash at index `len(chain)`.  `ts` is the `time.time()` input. -/
def Blockchain.add_block (sha : HashInput → String) (fuel : Nat) (ts : Int)
    (data : JValue) (bc : Blockchain) : Blockchain :=
  let latest := bc.get_latest_block
  let nb := (Block.init sha (bc.chain.length : Int) ts data latest.hash).mine_block
    sha bc.difficulty fuel
  { bc with chain := bc.chain ++ [nb] }

/-- The re-linking loop of `remove_block`: for each block after the cut,
set `index` to its new position, `previous_hash` to the (already
re-linked) predecessor's current hash, and recompute `hash`.  `ph` is the
hash of the block before the current position. -/
def relink (sha : HashInput → String) : List Block → Nat → String → List Block
  | [], _, _ => []
  | b :: rest, pos, ph =>
      let b1 : Block := { b with index := (pos : Int), previous_hash := ph }
      let b2 : Block := { b1 with hash := b1.calculate_hash sha }
      b2 :: relink sha rest (pos + 1) b2.hash

/-- `Blockchain.remove_block(index)`: refuse non-positive and
out-of-range positions; otherwise delete the block and re-link the tail.
Returns the updated ledger and the source's boolean result. -/
def Blockchain.remove_block (sha : HashInput → String) (idx : Int) (bc : Blockchain) :
    Blockchain × Bool :=
  if idx ≤ 0 ∨ (bc.chain.length : Int) ≤ idx then (bc, false)
  else
    let i := idx.toNat
    let c := bc.chain.eraseIdx i
    let pre := c.take i
    let ph := (pre.getLastD dummyBlock).hash
    ({ bc with chain := pre ++ relink sha (c.drop i) i ph }, true)

/-- Validation failure kinds: a block whose stored hash disagrees with
its recomputed digest, or a broken link to the predecessor. -/
inductive Violation where
  | tampered
  | broken
deriving Repr, DecidableEq

/-- The validation scan of `is_chain_valid`: walk positions `i = 1, ...`
with the predecessor at hand, reporting the first violated position (the
source prints it and returns `False` there). -/
def scanChain (sha : HashInput → String) : Block → List Block → Nat →
    Option (Nat × Violation)
  | _, [], _ => none
  | prev, cur :: rest, i =>
      if cur.hash ≠ cur.calculate_hash sha then some (i, .tampered)
      else if cur.previous_hash ≠ prev.hash then some (i, .broken)
      else scanChain sha cur rest (i + 1)

/-- First violated position of the chain, scanning positions
`1 .. len-1` in order; `none` when the chain is valid. -/
def Blockchain.firstViolation (sha : HashInput → String) (bc : Blockchain) :
    Option (Nat × Violation) :=
  match bc.chain with
  | [] => none
  | g :: rest => scanChain sha g rest 1

/-- `Blockchain.is_chain_valid`. -/
def Blockchain.is_chain_valid (sha : HashInput → String) (bc : Blockchain) : Bool :=
  (bc.firstViolation sha).isNone

/-- `Blockchain.to_dict`: `{"difficulty": ..., "chain": [...]}`. -/
def Blockchain.to_dict (bc : Blockchain) : JValue :=
  .jobj [("difficulty", .jint bc.difficulty),
         ("chain", .jarr (bc.chain.map Block.to_dict))]

/-- `Blockchain.from_dict`: `difficulty` via `.get("difficulty", 0)`,
then every entry of the mandatory `"chain"` list through
`Block.from_dict`.  A missing `"chain"` key raises `KeyError`; a
non-object document or non-list chain raises the corresponding
attribute/type error — none of which the load path catches. -/
def Blockchain.from_dict (sha : HashInput → String) (j : JValue) :
    Except PyErr Blockchain := do
  match j with
  | .jobj l =>
      let difficulty ←
        match l.find? (fun p => p.1 = "difficulty") with
        | some p => jAsInt p.2
        | none => .ok 0
      let chainJ ← jGetItem j "chain"
      match chainJ with
      | .jarr bs => do
          let blocks ← bs.mapM (Block.from_dict sha)
          .ok ⟨difficulty, blocks⟩
      | _ => .error (.typeError "chain value is not iterable as records")
  | _ => .error (.attributeError "document has no attribute get")

/-- Content of the durable blockchain file as seen by
`_load_or_create_blockchain`: absent, present but blank, present but not
valid JSON, or successfully parsed into a JSON document. -/
inductive StoreContent where
  | missing
  | empty
  | malformed (msg : String)
  | parsed (doc : JValue)

/-- A freshly created ledger together with its immediately persisted
serialized form, as produced by the creation branches of the load path. -/
def freshSaved (sha : HashInput → String) (difficulty ts : Int) (fuel : Nat) :
    Blockchain × StoreContent :=
  let bc := Blockchain.create sha difficulty ts fuel
  (bc, .parsed bc.to_dict)

/-- `IPFSFileManager._load_or_create_blockchain`.  A missing file, an
empty file (`ValueError`) and a non-JSON file (`json.JSONDecodeError`)
all lead to a fresh persisted ledger; the `except` clause also covers
those two exception classes had `Blockchain.from_dict` raised them, but
any other exception escaping `from_dict` (such as `KeyError` for a
well-formed JSON document without a `"chain"` key) propagates. -/
def loadOrCreate (sha : HashInput → String) (difficulty ts : Int) (fuel : Nat)
    (store : StoreContent) : Except PyErr (Blockchain × StoreContent) :=
  match store with
  | .missing => .ok (freshSaved sha difficulty ts fuel)
  | .empty => .ok (freshSaved sha difficulty ts fuel)
  | .malformed _ => .ok (freshSaved sha difficulty ts fuel)
  | .parsed doc =>
      match Blockchain.from_dict sha doc with
      | .ok bc => .ok (bc, .parsed doc)
      | .error (.valueError _) => .ok (freshSaved sha difficulty ts fuel)
      | .error (.jsonDecodeError _) => .ok (freshSaved sha difficulty ts fuel)
      | .error e => .error e

/-- The manager's ledger state: the in-memory blockchain plus the content
of the durable blockchain file. -/
structure NodeState where
  blockchain : Blockchain
  store : StoreContent

/-- `_save_blockchain`: overwrite the durable file with the serialized
in-memory ledger. -/
def saveBlockchain (st : NodeState) : NodeState :=
  { st with store := .parsed st.blockchain.to_dict }

/-- Result dictionary of `sync_from_peer` (`blocks` is present only on
success). -/
structure SyncResult where
  success : Bool
  message : String
  blocks : Option Nat

/-- Outcome of the external steps of `sync_from_peer` before the
conflict-resolution comparison: IPNS resolution failure, IPFS fetch
failure, `json.load` failure, or a parsed peer document. -/
inductive SyncFetch where
  | resolveErr (msg : String)
  | fetchErr (msg : String)
  | parseErr (msg : String)
  | fetched (doc : JValue)

/-- `IPFSFileManager.sync_from_peer`: validate the fetched peer ledger,
compare lengths and the latest-block hashes, adopt wholesale (and
persist) or keep the local ledger; every exception inside the `try`
block becomes a `"Sync failed: ..."` result leaving the state untouched. -/
def IPFSFileManager.sync_from_peer (sha : HashInput → String) (st : NodeState)
    (input : SyncFetch) : NodeState × SyncResult :=
  match input with
  | .resolveErr m => (st, ⟨false, "Sync failed: " ++ m, none⟩)
  | .fetchErr m => (st, ⟨false, "Sync failed: " ++ m, none⟩)
  | .parseErr m => (st, ⟨false, "Sync failed: " ++ m, none⟩)
  | .fetched doc =>
      match Blockchain.from_dict sha doc with
      | .error e => (st, ⟨false, "Sync failed: " ++ e.msg, none⟩)
      | .ok peer =>
          if peer.is_chain_valid sha = false then
            (st, ⟨false, "Peer blockchain is invalid (tampered)", none⟩)
          else if st.blockchain.len < peer.len then
            (saveBlockchain { st with blockchain := peer },
             ⟨true, "Synced! Peer has more blocks (" ++ toString peer.len ++
               " vs " ++ toString st.blockchain.len ++ ")", some peer.len⟩)
          else if peer.len = st.blockchain.len then
            match peer.chain.getLast?, st.blockchain.chain.getLast? with
            | some pl, some ll =>
                if pl.hash ≠ ll.hash then
                  (saveBlockchain { st with blockchain := peer },
                   ⟨true, "Synced! Same length but different content", some peer.len⟩)
                else
                  (st, ⟨true, "No update needed. Blockchains are identical",
                    some st.blockchain.len⟩)
            | _, _ =>
                (st, ⟨false, "Sync failed: list index out of range", none⟩)
          else
            (st, ⟨true, "No update needed. Peer has fewer blocks (" ++
              toString peer.len ++ " vs " ++ toString st.blockchain.len ++ ")",
              some st.blockchain.len⟩)

/-- One ledger mutation of the closure property: `add_block` with its
external timestamp, or `remove_block` at a position.  Fuel is carried per
operation for the (default-difficulty no-op) mining loop. -/
inductive LedgerOp where
  | append (ts : Int) (payload : JValue) (fuel : Nat)
  | remove (idx : Int)

/-- Apply one operation to the ledger. -/
def applyOp (sha : HashInput → String) (bc : Blockchain) : LedgerOp → Blockchain
  | .append ts payload fuel => bc.add_block sha fuel ts payload
  | .remove idx => (bc.remove_block sha idx).1

/-- Apply a finite sequence of operations in order. -/
def applyOps (sha : HashInput → String) (bc : Blockchain) (ops : List LedgerOp) :
    Blockchain :=
  ops.foldl (applyOp sha) bc

/-- A block whose stored hash agrees with the digest recomputed from its
current fields (the per-entry invariant of the spec). -/
def Sealed (sha : HashInput → String) (b : Block) : Prop :=
  b.hash = b.calculate_hash sha

/-- The pairwise chain invariant for the blocks after the genesis block:
each is sealed and linked to its predecessor's current hash. -/
def GoodTail (sha : HashInput → String) : Block → List Block → Prop
  | _, [] => True
  | prev, b :: rest => Sealed sha b ∧ b.previous_hash = prev.hash ∧ GoodTail sha b rest

/-- A chain reachable by the constructor and ledger operations: non-empty
and satisfying the pairwise invariant. -/
def GoodChain (sha : HashInput → String) (bc : Blockchain) : Prop :=
  ∃ g t, bc.chain = g :: t ∧ GoodTail sha g t

/-- Constant digest stand-in used by concrete witnesses (any function is
admissible: the theorems quantify over the digest). -/
def shaB : HashInput → String := fun _ => "B"

/-- Witness for C10: a one-block ledger whose genesis entry has a stored
hash disagreeing with its recomputed digest and a previous_hash other
than "0" is still reported valid. -/
def badGenesisChain : Blockchain := ⟨0, [⟨0, 0, genesisData, "xyz", 0, "corrupt"⟩]⟩

/-- Single-field mutations of an entry, as in the spec's tamper test. -/
inductive FieldMut where
  | mIndex (v : Int)
  | mTimestamp (v : Int)
  | mData (v : JValue)
  | mPrev (v : String)
  | mNonce (v : Int)
  | mHash (v : String)

/-- Overwrite the chosen field of a block. -/
def FieldMut.apply : FieldMut → Block → Block
  | .mIndex v, b => { b with index := v }
  | .mTimestamp v, b => { b with timestamp := v }
  | .mData v, b => { b with data := v }
  | .mPrev v, b => { b with previous_hash := v }
  | .mNonce v, b => { b with nonce := v }
  | .mHash v, b => { b with hash := v }

/-- The new field value differs from the old one.  For the payload the
comparison is between canonical forms: Python dict equality is
insertion-order-insensitive, so that is what "a different value" means. -/
def FieldMut.changes : FieldMut → Block → Prop
  | .mIndex v, b => v ≠ b.index
  | .mTimestamp v, b => v ≠ b.timestamp
  | .mData v, b => canonJ v ≠ canonJ b.data
  | .mPrev v, b => v ≠ b.previous_hash
  | .mNonce v, b => v ≠ b.nonce
  | .mHash v, b => v ≠ b.hash

/-- Collision-freedom of the digest at the mutated entry: for mutations
of a hashed field, the recomputed digest differs from the digest of the
original fields.  This is the standard idealization of SHA-256 (distinct
inputs give distinct digests); mutating the stored `hash` field needs no
such assumption. -/
def FieldMut.freshDigest (sha : HashInput → String) : FieldMut → Block → Prop
  | .mHash _, _ => True
  | m, b => Block.calculate_hash sha (m.apply b) ≠ Block.calculate_hash sha b

/-- The failure message carried by each rejecting branch of
`sync_from_peer`. -/
def syncFailureMsg (sha : HashInput → String) : SyncFetch → String
  | .resolveErr m => "Sync failed: " ++ m
  | .fetchErr m => "Sync failed: " ++ m
  | .parseErr m => "Sync failed: " ++ m
  | .fetched doc =>
      match Blockchain.from_dict sha doc with
      | .error e => "Sync failed: " ++ e.msg
      | .ok _ => "Peer blockchain is invalid (tampered)"

/-- Sample file-metadata payloads for the concrete witnesses. -/
def payloadA : JValue := .jobj [("file_id", .jstr "a")]

/-- A second sample payload. -/
def payloadB : JValue := .jobj [("file_id", .jstr "b")]

/-- Witness ledger with three blocks under the constant digest. -/
def bcW3 : Blockchain :=
  ((Blockchain.create shaB 0 0 0).add_block shaB 0 1 payloadA).add_block shaB 0 2 payloadB

/-- Digest stand-in that distinguishes exactly the nonce value used by the
C5 witness mutation (so the mutated entry provably gets a fresh digest). -/
def shaN : HashInput → String := fun hi => if hi.nonce = 5 then "A" else "B"

/-- Two-block witness ledger under `shaN`. -/
def bcW5 : Blockchain := (Blockchain.create shaN 0 0 0).add_block shaN 0 1 payloadA

/-- Local node state for the sync witnesses: a fresh one-block ledger. -/
def stW : NodeState := ⟨Blockchain.create shaB 0 0 0, .missing⟩

/-- A longer valid peer ledger. -/
def peerW : Blockchain := (Blockchain.create shaB 0 0 0).add_block shaB 0 1 payloadA

/-- A tampered peer ledger: the second entry's stored hash is overwritten. -/
def tamperedW : Blockchain :=
  { peerW with chain := peerW.chain.set 1 { peerW.chain.getD 1 dummyBlock with hash := "X" } }

/-- Payload with a nested mapping, keys inserted in one order. -/
def p1W : JValue := .jobj [("a", .jint 1), ("b", .jobj [("x", .jint 2), ("y", .jint 3)])]

/-- The same logical payload with keys inserted in the other order at both
levels of nesting. -/
def p2W : JValue := .jobj [("b", .jobj [("y", .jint 3), ("x", .jint 2)]), ("a", .jint 1)]


theorem canonKV_keys (l : List (String × JValue)) :
    (canonKV l).map Prod.fst = l.map Prod.fst := by
  induction l with
  | nil => rfl
  | cons p rest ih => cases p; simp [canonKV, ih]

theorem sortByKey_perm (l : List (String × JValue)) : (sortByKey l).Perm l :=
  List.perm_insertionSort keyLe l

theorem sortByKey_sorted (l : List (String × JValue)) :
    List.Sorted keyLe (sortByKey l) :=
  List.sorted_insertionSort keyLe l

/-- Sorting by key is invariant under permutation when keys are distinct:
the sorted arrangement of an association list with `Nodup` keys is unique. -/
theorem sortByKey_eq_of_perm {l1 l2 : List (String × JValue)}
    (hp : l1.Perm l2) (hn : (l1.map Prod.fst).Nodup) :
    sortByKey l1 = sortByKey l2 := by
  have p1 := sortByKey_perm l1
  have p2 := sortByKey_perm l2
  have hperm : (sortByKey l1).Perm (sortByKey l2) := p1.trans (hp.trans p2.symm)
  have hn1 : ((sortByKey l1).map Prod.fst).Nodup :=
    ((p1.map Prod.fst).nodup_iff).2 hn
  have hn2 : ((sortByKey l2).map Prod.fst).Nodup :=
    ((hperm.map Prod.fst).nodup_iff).1 hn1
  have hs1 : List.Sorted keyLt (sortByKey l1) := by
    have hle := sortByKey_sorted l1
    have hne : List.Pairwise (fun a b : String × JValue => a.1 ≠ b.1) (sortByKey l1) :=
      List.pairwise_map.1 hn1
    exact (hle.and hne).imp (fun h => lt_of_le_of_ne h.1 h.2)
  have hs2 : List.Sorted keyLt (sortByKey l2) := by
    have hle := sortByKey_sorted l2
    have hne : List.Pairwise (fun a b : String × JValue => a.1 ≠ b.1) (sortByKey l2) :=
      List.pairwise_map.1 hn2
    exact (hle.and hne).imp (fun h => lt_of_le_of_ne h.1 h.2)
  exact List.eq_of_perm_of_sorted hperm hs1 hs2

/-- Logically identical payloads have identical canonical forms, hence
identical digest inputs. -/
theorem jequiv_canon {v1 v2 : JValue} (h : JEquiv v1 v2) : canonJ v1 = canonJ v2 := by
  refine @JEquiv.rec (fun v1 v2 _ => canonJ v1 = canonJ v2)
    (fun l1 l2 _ => (canonKV l1).Perm (canonKV l2))
    ?_ ?_ ?_ ?_ ?_ ?_ v1 v2 h
  · intro v
    rfl
  · intro l1 l2 _ hnd ih
    show canonJ (.jobj l1) = canonJ (.jobj l2)
    have hcan : ((canonKV l1).map Prod.fst).Nodup := by
      rw [canonKV_keys]; exact hnd
    simp only [canonJ]
    rw [sortByKey_eq_of_perm ih hcan]
  · exact List.Perm.refl _
  · intro k v w t1 t2 _ _ ihv iht
    simp only [canonKV]
    rw [ihv]
    exact iht.cons _
  · intro k1 k2 u1 u2 t
    simp only [canonKV]
    exact List.Perm.swap _ _ _
  · intro l1 l2 l3 _ _ ih1 ih2
    exact ih1.trans ih2

theorem calculate_hash_set_hash (sha : HashInput → String) (b : Block) (h : String) :
    Block.calculate_hash sha { b with hash := h } = b.calculate_hash sha := rfl

theorem init_sealed (sha : HashInput → String) (i t : Int) (d : JValue) (ph : String) :
    Sealed sha (Block.init sha i t d ph) := rfl

theorem mineLoop_sealed (sha : HashInput → String) (d : Int) :
    ∀ (fuel : Nat) (b : Block), Sealed sha b → Sealed sha (Block.mineLoop sha d fuel b)
  | 0, _, hb => hb
  | fuel + 1, b, hb => by
      unfold Block.mineLoop
      split
      · exact hb
      · exact mineLoop_sealed sha d fuel _ rfl

theorem mineLoop_fields (sha : HashInput → String) (d : Int) :
    ∀ (fuel : Nat) (b : Block),
      (Block.mineLoop sha d fuel b).previous_hash = b.previous_hash ∧
      (Block.mineLoop sha d fuel b).index = b.index
  | 0, _ => ⟨rfl, rfl⟩
  | fuel + 1, b => by
      unfold Block.mineLoop
      split
      · exact ⟨rfl, rfl⟩
      · exact mineLoop_fields sha d fuel _

theorem mine_block_sealed (sha : HashInput → String) (d : Int) (fuel : Nat) (b : Block)
    (hb : Sealed sha b) : Sealed sha (b.mine_block sha d fuel) := by
  unfold Block.mine_block
  split
  · exact hb
  · exact mineLoop_sealed sha d fuel b hb

theorem mine_block_fields (sha : HashInput → String) (d : Int) (fuel : Nat) (b : Block) :
    (b.mine_block sha d fuel).previous_hash = b.previous_hash ∧
    (b.mine_block sha d fuel).index = b.index := by
  unfold Block.mine_block
  split
  · exact ⟨rfl, rfl⟩
  · exact mineLoop_fields sha d fuel b

theorem goodTail_append {sha : HashInput → String} :
    ∀ {xs : List Block} {prev : Block} {ys : List Block},
      GoodTail sha prev xs → GoodTail sha (xs.getLastD prev) ys →
      GoodTail sha prev (xs ++ ys)
  | [], _, _, _, hy => hy
  | x :: xs, prev, ys, hx, hy => by
      obtain ⟨h1, h2, h3⟩ := hx
      rw [List.getLastD_cons] at hy
      exact ⟨h1, h2, goodTail_append h3 hy⟩

theorem goodTail_take {sha : HashInput → String} :
    ∀ {l : List Block} {prev : Block} (n : Nat),
      GoodTail sha prev l → GoodTail sha prev (l.take n)
  | [], _, n, _ => by simp [GoodTail]
  | _ :: _, _, 0, _ => trivial
  | b :: rest, prev, n + 1, h => by
      obtain ⟨h1, h2, h3⟩ := h
      exact ⟨h1, h2, goodTail_take n h3⟩

theorem goodTail_getD {sha : HashInput → String} :
    ∀ {l : List Block} {prev : Block} (j : Nat), GoodTail sha prev l → j < l.length →
      Sealed sha (l.getD j dummyBlock) ∧
      (l.getD j dummyBlock).previous_hash =
        (if j = 0 then prev else l.getD (j - 1) dummyBlock).hash
  | [], _, j, _, hj => absurd hj (by simp)
  | b :: rest, prev, 0, h, _ => ⟨h.1, by simpa using h.2.1⟩
  | b :: rest, prev, j + 1, h, hj => by
      have ih := @goodTail_getD sha rest b j h.2.2 (by simpa using hj)
      refine ⟨ih.1, ?_⟩
      rcases Nat.eq_zero_or_pos j with hz | hpos
      · subst hz
        simpa using ih.2
      · have hj1 : j + 1 - 1 = j := rfl
        have hjne : j ≠ 0 := Nat.pos_iff_ne_zero.1 hpos
        simp only [List.getD_cons_succ, hj1, if_neg (Nat.succ_ne_zero j)]
        rw [ih.2, if_neg hjne]
        have : j - 1 + 1 = j := Nat.succ_pred_eq_of_pos hpos
        rw [← this]
        simp [List.getD_cons_succ]

theorem scan_none_of_goodTail {sha : HashInput → String} :
    ∀ {l : List Block} {prev : Block} {i : Nat},
      GoodTail sha prev l → scanChain sha prev l i = none
  | [], _, _, _ => rfl
  | b :: rest, prev, i, h => by
      obtain ⟨h1, h2, h3⟩ := h
      have h1s : b.hash = Block.calculate_hash sha b := h1
      show (if b.hash ≠ Block.calculate_hash sha b then some (i, Violation.tampered)
        else if b.previous_hash ≠ prev.hash then some (i, Violation.broken)
        else scanChain sha b rest (i + 1)) = none
      rw [if_neg (not_not_intro h1s), if_neg (not_not_intro h2)]
      exact scan_none_of_goodTail h3

theorem goodTail_of_scan_none {sha : HashInput → String} :
    ∀ {l : List Block} {prev : Block} {i : Nat},
      scanChain sha prev l i = none → GoodTail sha prev l
  | [], _, _, _ => trivial
  | b :: rest, prev, i, h => by
      unfold scanChain at h
      by_cases h1 : b.hash ≠ b.calculate_hash sha
      · rw [if_pos h1] at h
        exact absurd h (by simp)
      · rw [if_neg h1] at h
        by_cases h2 : b.previous_hash ≠ prev.hash
        · rw [if_pos h2] at h
          exact absurd h (by simp)
        · rw [if_neg h2] at h
          exact ⟨not_not.1 h1, not_not.1 h2, goodTail_of_scan_none h⟩

theorem scan_append {sha : HashInput → String} :
    ∀ {xs : List Block} {prev : Block} {ys : List Block} {i : Nat},
      GoodTail sha prev xs →
      scanChain sha prev (xs ++ ys) i = scanChain sha (xs.getLastD prev) ys (i + xs.length)
  | [], _, _, _, _ => by simp
  | x :: xs, prev, ys, i, h => by
      obtain ⟨h1, h2, h3⟩ := h
      have h1s : x.hash = Block.calculate_hash sha x := h1
      have e : scanChain sha prev ((x :: xs) ++ ys) i = scanChain sha x (xs ++ ys) (i + 1) := by
        show (if x.hash ≠ Block.calculate_hash sha x then some (i, Violation.tampered)
          else if x.previous_hash ≠ prev.hash then some (i, Violation.broken)
          else scanChain sha x (xs ++ ys) (i + 1)) = _
        rw [if_neg (not_not_intro h1s), if_neg (not_not_intro h2)]
      rw [e, scan_append h3, List.getLastD_cons]
      congr 1
      simp only [List.length_cons]
      omega

theorem valid_of_goodChain {sha : HashInput → String} {bc : Blockchain}
    (h : GoodChain sha bc) : bc.is_chain_valid sha = true := by
  obtain ⟨g, t, hc, ht⟩ := h
  unfold Blockchain.is_chain_valid Blockchain.firstViolation
  rw [hc]
  simp [scan_none_of_goodTail ht]

theorem goodTail_of_valid {sha : HashInput → String} {bc : Blockchain}
    {g : Block} {t : List Block} (hv : bc.is_chain_valid sha = true)
    (hc : bc.chain = g :: t) : GoodTail sha g t := by
  unfold Blockchain.is_chain_valid Blockchain.firstViolation at hv
  rw [hc] at hv
  exact goodTail_of_scan_none (Option.isNone_iff_eq_none.1 hv)

theorem goodChain_of_valid_ne {sha : HashInput → String} {bc : Blockchain}
    (hv : bc.is_chain_valid sha = true) (hne : bc.chain ≠ []) : GoodChain sha bc := by
  match hc : bc.chain with
  | [] => exact absurd hc hne
  | g :: t => exact ⟨g, t, hc, goodTail_of_valid hv hc⟩

theorem create_goodChain (sha : HashInput → String) (difficulty ts : Int) (fuel : Nat) :
    GoodChain sha (Blockchain.create sha difficulty ts fuel) :=
  ⟨_, [], rfl, trivial⟩

theorem add_block_goodChain {sha : HashInput → String} {bc : Blockchain}
    (h : GoodChain sha bc) (fuel : Nat) (ts : Int) (data : JValue) :
    GoodChain sha (bc.add_block sha fuel ts data) := by
  obtain ⟨g, t, hc, ht⟩ := h
  refine ⟨g, t ++ [(Block.init sha (bc.chain.length : Int) ts data
    bc.get_latest_block.hash).mine_block sha bc.difficulty fuel], ?_, ?_⟩
  · show bc.chain ++ [_] = _
    rw [hc]
    rfl
  · refine goodTail_append ht ?_
    refine ⟨mine_block_sealed _ _ _ _ (init_sealed _ _ _ _ _), ?_, trivial⟩
    rw [(mine_block_fields sha bc.difficulty fuel _).1]
    show (Block.init sha _ ts data bc.get_latest_block.hash).previous_hash = _
    unfold Blockchain.get_latest_block
    rw [hc, List.getLastD_cons]
    rfl

theorem take_eraseIdx_self :
    ∀ (l : List Block) (n : Nat), (l.eraseIdx n).take n = l.take n
  | [], _ => by simp
  | _ :: _, 0 => by simp
  | b :: rest, n + 1 => by
      simp only [List.eraseIdx_cons_succ, List.take_succ_cons]
      rw [take_eraseIdx_self rest n]

theorem drop_eraseIdx_self :
    ∀ (l : List Block) (n : Nat), (l.eraseIdx n).drop n = l.drop (n + 1)
  | [], _ => by simp
  | _ :: _, 0 => by simp
  | b :: rest, n + 1 => by
      simp only [List.eraseIdx_cons_succ, List.drop_succ_cons]
      exact drop_eraseIdx_self rest n

theorem relink_length (sha : HashInput → String) :
    ∀ (l : List Block) (pos : Nat) (ph : String), (relink sha l pos ph).length = l.length
  | [], _, _ => rfl
  | b :: rest, pos, ph => by
      show (relink sha rest (pos + 1) _).length + 1 = rest.length + 1
      rw [relink_length sha rest]

theorem relink_goodTail (sha : HashInput → String) :
    ∀ (l : List Block) (pos : Nat) (prev : Block),
      GoodTail sha prev (relink sha l pos prev.hash)
  | [], _, _ => trivial
  | b :: rest, pos, prev => by
      refine ⟨rfl, rfl, ?_⟩
      exact relink_goodTail sha rest (pos + 1) _

theorem relink_getD_index (sha : HashInput → String) :
    ∀ (l : List Block) (pos : Nat) (ph : String) (j : Nat), j < l.length →
      ((relink sha l pos ph).getD j dummyBlock).index = ((pos + j : Nat) : Int)
  | [], _, _, j, hj => absurd hj (by simp)
  | b :: rest, pos, ph, 0, _ => by simp [relink]
  | b :: rest, pos, ph, j + 1, hj => by
      show ((relink sha rest (pos + 1) _).getD j dummyBlock).index = _
      rw [relink_getD_index sha rest (pos + 1) _ j (by simpa using hj)]
      congr 1
      omega

/-- Exact shape of a successful `remove_block` at position `j + 1` on the
chain `g :: t`: the untouched prefix followed by the re-linked tail. -/
theorem remove_block_pos (sha : HashInput → String) (bc : Blockchain) (j : Nat)
    (g : Block) (t : List Block) (hchain : bc.chain = g :: t) (hj : j < t.length) :
    bc.remove_block sha ((j + 1 : Nat) : Int) =
      ({ bc with chain := ((g :: t.take j) ++ relink sha (t.drop (j + 1)) (j + 1) ((t.take j).getLastD g).hash) }, true) := by
  unfold Blockchain.remove_block
  rw [if_neg]
  · have htoNat : ((j + 1 : Nat) : Int).toNat = j + 1 := by omega
    have herase : (g :: t).eraseIdx (j + 1) = g :: t.eraseIdx j := by
      simp [List.eraseIdx_cons_succ]
    have htake : (g :: t.eraseIdx j).take (j + 1) = g :: t.take j := by
      simp only [List.take_succ_cons]
      rw [take_eraseIdx_self]
    have hdrop : (g :: t.eraseIdx j).drop (j + 1) = t.drop (j + 1) := by
      simp only [List.drop_succ_cons]
      rw [drop_eraseIdx_self]
    simp only [hchain, htoNat, herase, htake, hdrop, List.getLastD_cons]
  · rw [hchain]
    push_neg
    constructor
    · omega
    · simp only [List.length_cons]
      omega

theorem remove_block_goodChain {sha : HashInput → String} {bc : Blockchain}
    (h : GoodChain sha bc) (idx : Int) :
    GoodChain sha ((bc.remove_block sha idx).1) := by
  obtain ⟨g, t, hc, ht⟩ := h
  by_cases hguard : idx ≤ 0 ∨ (bc.chain.length : Int) ≤ idx
  · unfold Blockchain.remove_block
    rw [if_pos hguard]
    exact ⟨g, t, hc, ht⟩
  · push_neg at hguard
    have h1 : 0 < idx := hguard.1
    have h2 : idx < (bc.chain.length : Int) := hguard.2
    have hlen : bc.chain.length = t.length + 1 := by rw [hc]; rfl
    obtain ⟨j, hjdef⟩ : ∃ j : Nat, idx = ((j + 1 : Nat) : Int) := ⟨idx.toNat - 1, by omega⟩
    have hj : j < t.length := by omega
    rw [hjdef, remove_block_pos sha bc j g t hc hj]
    refine ⟨g, t.take j ++ relink sha (t.drop (j + 1)) (j + 1) ((t.take j).getLastD g).hash,
      rfl, ?_⟩
    refine goodTail_append (goodTail_take j ht) ?_
    exact relink_goodTail sha _ _ _

theorem applyOp_goodChain {sha : HashInput → String} {bc : Blockchain}
    (h : GoodChain sha bc) (op : LedgerOp) : GoodChain sha (applyOp sha bc op) := by
  cases op with
  | append ts payload fuel => exact add_block_goodChain h fuel ts payload
  | remove idx => exact remove_block_goodChain h idx

theorem applyOps_goodChain {sha : HashInput → String} {bc : Blockchain}
    (h : GoodChain sha bc) (ops : List LedgerOp) : GoodChain sha (applyOps sha bc ops) := by
  induction ops generalizing bc with
  | nil => exact h
  | cons op rest ih => exact ih (applyOp_goodChain h op)

theorem block_from_to_dict (sha : HashInput → String) (b : Block) :
    Block.from_dict sha b.to_dict = .ok b := rfl

theorem chain_from_to_dict (sha : HashInput → String) :
    ∀ l : List Block, (l.map Block.to_dict).mapM (Block.from_dict sha) = .ok l
  | [] => rfl
  | b :: rest => by
      rw [List.map_cons, List.mapM_cons, block_from_to_dict]
      simp only [bind, Except.bind]
      rw [chain_from_to_dict sha rest]
      rfl

theorem blockchain_from_to_dict (sha : HashInput → String) (bc : Blockchain) :
    Blockchain.from_dict sha bc.to_dict = .ok bc := by
  show ((bc.chain.map Block.to_dict).mapM (Block.from_dict sha) >>= fun blocks =>
    Except.ok ⟨bc.difficulty, blocks⟩) = Except.ok bc
  rw [chain_from_to_dict sha bc.chain]
  rfl

theorem getLast?_eq_getLastD :
    ∀ (l : List Block), l ≠ [] → l.getLast? = some (l.getLastD dummyBlock)
  | [], h => absurd rfl h
  | [b], _ => rfl
  | a :: b :: t, _ => by
      rw [List.getLast?_cons_cons, getLast?_eq_getLastD (b :: t) (by simp)]
      rw [List.getLastD_cons, List.getLastD_cons, List.getLastD_cons]

/-- C1: every ledger obtained from `Create(difficulty)` followed by any
finite sequence of `Append(payload)` and `Remove(position)` operations
passes `Validate()` (the closure property). -/
theorem c1_closure_valid (sha : HashInput → String) (difficulty ts : Int)
    (fuel : Nat) (ops : List LedgerOp) :
    (applyOps sha (Blockchain.create sha difficulty ts fuel) ops).is_chain_valid sha = true :=
  valid_of_goodChain (applyOps_goodChain (create_goodChain sha difficulty ts fuel) ops)

/-- C10: validation reports every chain of length 0 or 1 valid, without
checking the genesis entry's own stored hash or previous_hash. -/
theorem c10_short_chain_valid (sha : HashInput → String) (bc : Blockchain)
    (h : bc.chain.length ≤ 1) : bc.is_chain_valid sha = true := by
  unfold Blockchain.is_chain_valid Blockchain.firstViolation
  match hc : bc.chain with
  | [] => rfl
  | [g] => rfl
  | a :: b :: t =>
      rw [hc] at h
      simp at h

theorem c10_short_chain_valid_witness :
    badGenesisChain.chain.length ≤ 1 ∧
    badGenesisChain.chain.length = 1 ∧
    (badGenesisChain.chain.getD 0 dummyBlock).hash ≠
      Block.calculate_hash shaB (badGenesisChain.chain.getD 0 dummyBlock) ∧
    (badGenesisChain.chain.getD 0 dummyBlock).previous_hash ≠ "0" ∧
    badGenesisChain.is_chain_valid shaB = true :=
  ⟨by decide, by decide, by decide, by decide,
   c10_short_chain_valid shaB badGenesisChain (by decide)⟩

/-- C7: `remove_block` refuses every position `p ≤ 0` or `p ≥ length`,
returning `False` and leaving the ledger (length and every entry)
unchanged. -/
theorem c7_remove_rejected (sha : HashInput → String) (bc : Blockchain) (p : Int)
    (h : p ≤ 0 ∨ (bc.chain.length : Int) ≤ p) :
    bc.remove_block sha p = (bc, false) := by
  unfold Blockchain.remove_block
  rw [if_pos h]

theorem c7_remove_rejected_witness :
    ((5 : Int) ≤ 0 ∨ ((Blockchain.create shaB 0 0 0).chain.length : Int) ≤ 5) ∧
    (Blockchain.create shaB 0 0 0).remove_block shaB 5 = (Blockchain.create shaB 0 0 0, false) :=
  ⟨Or.inr (by decide), c7_remove_rejected shaB (Blockchain.create shaB 0 0 0) 5
    (Or.inr (by decide))⟩

/-- C8: serializing a valid ledger with `to_dict` and deserializing with
`from_dict` restores a structurally equal ledger: same difficulty and the
same list of entries with identical position, timestamp, payload,
previous_hash, nonce and hash fields. -/
theorem c8_roundtrip (sha : HashInput → String) (bc : Blockchain)
    (_hv : bc.is_chain_valid sha = true) :
    Blockchain.from_dict sha bc.to_dict = .ok bc :=
  blockchain_from_to_dict sha bc

theorem c8_roundtrip_witness :
    (Blockchain.create shaB 0 0 0).is_chain_valid shaB = true ∧
    Blockchain.from_dict shaB (Blockchain.create shaB 0 0 0).to_dict =
      .ok (Blockchain.create shaB 0 0 0) :=
  ⟨by decide, c8_roundtrip shaB (Blockchain.create shaB 0 0 0) (by decide)⟩

/-- C4 fails as stated: a durable store whose content is well-formed JSON
but lacks the `"chain"` key (such as the document `{}`) makes the load
path raise an uncaught `KeyError` — corruption does propagate to the
caller for such contents. -/
theorem c4_load_counterexample :
    loadOrCreate shaB 0 0 0 (.parsed (.jobj [])) = .error (.keyError "chain") := rfl

/-- C4 (amended): when the durable store is missing, empty, or not parseable
as JSON, the load path discards it, creates a fresh genesis-only ledger,
immediately persists it, and returns it without raising. -/
theorem c4_load_selfheal (sha : HashInput → String) (difficulty ts : Int) (fuel : Nat)
    (store : StoreContent)
    (h : store = .missing ∨ store = .empty ∨ ∃ m, store = .malformed m) :
    loadOrCreate sha difficulty ts fuel store =
      .ok (Blockchain.create sha difficulty ts fuel,
        .parsed (Blockchain.create sha difficulty ts fuel).to_dict) ∧
    (Blockchain.create sha difficulty ts fuel).chain.length = 1 := by
  rcases h with h | h | ⟨m, h⟩ <;> subst h <;> exact ⟨rfl, rfl⟩

theorem c4_load_selfheal_witness :
    (StoreContent.missing = StoreContent.missing ∨ StoreContent.missing = .empty ∨
      ∃ m, StoreContent.missing = .malformed m) ∧
    (loadOrCreate shaB 0 0 0 .missing =
      .ok (Blockchain.create shaB 0 0 0, .parsed (Blockchain.create shaB 0 0 0).to_dict) ∧
     (Blockchain.create shaB 0 0 0).chain.length = 1) :=
  ⟨Or.inl rfl, c4_load_selfheal shaB 0 0 0 .missing (Or.inl rfl)⟩

theorem set_eq_take_cons_drop :
    ∀ (l : List Block) (n : Nat) (b : Block), n < l.length →
      l.set n b = l.take n ++ b :: l.drop (n + 1)
  | [], _, _, hn => absurd hn (by simp)
  | _ :: _, 0, _, _ => rfl
  | a :: l, n + 1, b, hn => by
      simp only [List.set_cons_succ, List.take_succ_cons, List.drop_succ_cons, List.cons_append]
      rw [set_eq_take_cons_drop l n b (by simpa using hn)]

theorem tampered_head (sha : HashInput → String) {b : Block}
    (h : b.hash ≠ b.calculate_hash sha) (rest : List Block) (prev : Block) (i : Nat) :
    scanChain sha prev (b :: rest) i = some (i, .tampered) := by
  show (if b.hash ≠ b.calculate_hash sha then some (i, Violation.tampered)
    else if b.previous_hash ≠ prev.hash then some (i, Violation.broken)
    else scanChain sha b rest (i + 1)) = some (i, Violation.tampered)
  rw [if_pos h]

/-- C3: for every valid chain and interior position `0 < k < length`,
removal succeeds, shortens the chain by one, renumbers every entry from
position `k` on to its new contiguous index, re-links each such entry to
the current hash of its new predecessor with a freshly recomputed stored
hash, and the result validates. -/
theorem c3_remove_relinks (sha : HashInput → String) (bc : Blockchain) (k : Nat)
    (hv : bc.is_chain_valid sha = true) (hk0 : 0 < k) (hkn : k < bc.chain.length) :
    (bc.remove_block sha (k : Int)).2 = true ∧
    (bc.remove_block sha (k : Int)).1.chain.length = bc.chain.length - 1 ∧
    (∀ i, k ≤ i → i < (bc.remove_block sha (k : Int)).1.chain.length →
      ((bc.remove_block sha (k : Int)).1.chain.getD i dummyBlock).index = (i : Int) ∧
      ((bc.remove_block sha (k : Int)).1.chain.getD i dummyBlock).previous_hash =
        ((bc.remove_block sha (k : Int)).1.chain.getD (i - 1) dummyBlock).hash ∧
      ((bc.remove_block sha (k : Int)).1.chain.getD i dummyBlock).hash =
        Block.calculate_hash sha ((bc.remove_block sha (k : Int)).1.chain.getD i dummyBlock)) ∧
    (bc.remove_block sha (k : Int)).1.is_chain_valid sha = true := by
  obtain ⟨g, t, hc⟩ : ∃ g t, bc.chain = g :: t := by
    cases hcc : bc.chain with
    | nil => rw [hcc] at hkn; exact absurd hkn (by simp)
    | cons a b => exact ⟨a, b, rfl⟩
  obtain ⟨j, rfl⟩ : ∃ j : Nat, k = j + 1 := ⟨k - 1, by omega⟩
  have hlen : bc.chain.length = t.length + 1 := by rw [hc]; rfl
  have hj : j < t.length := by omega
  have ht : GoodTail sha g t := goodTail_of_valid hv hc
  have hrb := remove_block_pos sha bc j g t hc hj
  have hlt : (t.take j).length = j := by rw [List.length_take]; omega
  have hgt : GoodTail sha g (t.take j ++
      relink sha (t.drop (j + 1)) (j + 1) ((t.take j).getLastD g).hash) :=
    goodTail_append (goodTail_take j ht)
      (relink_goodTail sha (t.drop (j + 1)) (j + 1) ((t.take j).getLastD g))
  have hconsapp : (g :: t.take j) ++
      relink sha (t.drop (j + 1)) (j + 1) ((t.take j).getLastD g).hash =
      g :: (t.take j ++ relink sha (t.drop (j + 1)) (j + 1) ((t.take j).getLastD g).hash) :=
    List.cons_append g _ _
  simp only [hrb]
  refine ⟨trivial, ?_, ?_, ?_⟩
  · simp only [List.length_append, List.length_cons, relink_length, List.length_take,
      List.length_drop, hlen]
    omega
  · intro i hik hilen
    obtain ⟨n, rfl⟩ : ∃ n : Nat, i = n + 1 := ⟨i - 1, by omega⟩
    have hjn : j ≤ n := by omega
    rw [hconsapp] at hilen
    have hTlen : (t.take j ++
        relink sha (t.drop (j + 1) ) (j + 1) ((t.take j).getLastD g).hash).length =
        t.length - 1 := by
      simp only [List.length_append, relink_length, List.length_take, List.length_drop]
      omega
    have hnT : n < (t.take j ++
        relink sha (t.drop (j + 1)) (j + 1) ((t.take j).getLastD g).hash).length := by
      simp only [List.length_cons] at hilen
      omega
    have hget := goodTail_getD n hgt hnT
    have hnT1 : n < t.length - 1 := by rw [hTlen] at hnT; exact hnT
    have hbound : n - j < (t.drop (j + 1)).length := by
      simp only [List.length_drop]
      omega
    refine ⟨?_, ?_, ?_⟩
    · rw [hconsapp, List.getD_cons_succ]
      rw [List.getD_append_right _ _ _ _ (by omega)]
      rw [hlt]
      rw [relink_getD_index sha _ _ _ _ hbound]
      congr 1
      omega
    · rw [hconsapp, List.getD_cons_succ, hget.2]
      rcases Nat.eq_zero_or_pos n with hz | hpos
      · subst hz
        simp
      · have hn1 : n + 1 - 1 = n := rfl
        have hne : n ≠ 0 := Nat.pos_iff_ne_zero.1 hpos
        rw [if_neg hne, hn1]
        obtain ⟨p, rfl⟩ : ∃ p : Nat, n = p + 1 := ⟨n - 1, by omega⟩
        rw [List.getD_cons_succ]
        simp only [Nat.add_sub_cancel]
    · rw [hconsapp, List.getD_cons_succ]
      exact hget.1
  · refine valid_of_goodChain ⟨g, _, ?_, hgt⟩
    exact List.cons_append g _ _

/-- C5: in a valid ledger, overwriting any single field of the non-genesis
entry at position `i` with a different value (under digest
collision-freedom) makes validation fail, and the first violated position
reported by the scan is exactly `i`, as a tampered-hash violation. -/
theorem c5_tamper_first_violation (sha : HashInput → String) (bc : Blockchain)
    (i : Nat) (m : FieldMut)
    (hv : bc.is_chain_valid sha = true) (h1 : 0 < i) (h2 : i < bc.chain.length)
    (hch : m.changes (bc.chain.getD i dummyBlock))
    (hdig : m.freshDigest sha (bc.chain.getD i dummyBlock)) :
    Blockchain.firstViolation sha
      { bc with chain := bc.chain.set i (m.apply (bc.chain.getD i dummyBlock)) } =
      some (i, .tampered) ∧
    Blockchain.is_chain_valid sha
      { bc with chain := bc.chain.set i (m.apply (bc.chain.getD i dummyBlock)) } = false := by
  obtain ⟨g, t, hc⟩ : ∃ g t, bc.chain = g :: t := by
    cases hcc : bc.chain with
    | nil => rw [hcc] at h2; exact absurd h2 (by simp)
    | cons a b => exact ⟨a, b, rfl⟩
  obtain ⟨m0, rfl⟩ : ∃ m0 : Nat, i = m0 + 1 := ⟨i - 1, by omega⟩
  have hlen : bc.chain.length = t.length + 1 := by rw [hc]; rfl
  have hm0 : m0 < t.length := by omega
  have ht : GoodTail sha g t := goodTail_of_valid hv hc
  have hcur : bc.chain.getD (m0 + 1) dummyBlock = t.getD m0 dummyBlock := by
    rw [hc, List.getD_cons_succ]
  have hsealed : Sealed sha (bc.chain.getD (m0 + 1) dummyBlock) := by
    rw [hcur]
    exact (goodTail_getD m0 ht hm0).1
  have hbad : (m.apply (bc.chain.getD (m0 + 1) dummyBlock)).hash ≠
      Block.calculate_hash sha (m.apply (bc.chain.getD (m0 + 1) dummyBlock)) := by
    cases m with
    | mHash v => exact fun he => hch (he.trans hsealed.symm)
    | mIndex v => exact fun he => hdig (he.symm.trans hsealed)
    | mTimestamp v => exact fun he => hdig (he.symm.trans hsealed)
    | mData v => exact fun he => hdig (he.symm.trans hsealed)
    | mPrev v => exact fun he => hdig (he.symm.trans hsealed)
    | mNonce v => exact fun he => hdig (he.symm.trans hsealed)
  have hset : bc.chain.set (m0 + 1) (m.apply (bc.chain.getD (m0 + 1) dummyBlock)) =
      g :: (t.take m0 ++ (m.apply (bc.chain.getD (m0 + 1) dummyBlock)) :: t.drop (m0 + 1)) := by
    rw [hc, List.set_cons_succ, set_eq_take_cons_drop t m0 _ hm0]
  have hltake : (t.take m0).length = m0 := by rw [List.length_take]; omega
  have hfv : ∀ bc2 : Blockchain,
      bc2.chain = g :: (t.take m0 ++
        (m.apply (bc.chain.getD (m0 + 1) dummyBlock)) :: t.drop (m0 + 1)) →
      Blockchain.firstViolation sha bc2 = some (m0 + 1, .tampered) := by
    intro bc2 hbc2
    unfold Blockchain.firstViolation
    simp only [hbc2]
    rw [scan_append (goodTail_take m0 ht), hltake, Nat.add_comm 1 m0]
    exact tampered_head sha hbad _ _ _
  refine ⟨hfv _ hset, ?_⟩
  unfold Blockchain.is_chain_valid
  rw [hfv _ hset]
  rfl

/-- C2: for a valid, non-empty peer ledger (and non-empty local ledger),
sync adopts the peer exactly when it is strictly longer, or equally long
with a different latest-entry hash; rejects without any update when the
peer is shorter; is a no-op when lengths and latest hashes agree; and
adoption replaces the local ledger wholesale and persists it — never
merging entries. -/
theorem c2_reconciliation_policy (sha : HashInput → String) (st : NodeState)
    (peer : Blockchain) (hvalid : peer.is_chain_valid sha = true)
    (hp : peer.chain.length ≠ 0) (hl : st.blockchain.chain.length ≠ 0) :
    (st.blockchain.len < peer.len →
      IPFSFileManager.sync_from_peer sha st (.fetched peer.to_dict) =
        ({ blockchain := peer, store := .parsed peer.to_dict },
         ⟨true, "Synced! Peer has more blocks (" ++ toString peer.len ++ " vs " ++
           toString st.blockchain.len ++ ")", some peer.len⟩)) ∧
    (peer.len = st.blockchain.len →
      peer.get_latest_block.hash ≠ st.blockchain.get_latest_block.hash →
      IPFSFileManager.sync_from_peer sha st (.fetched peer.to_dict) =
        ({ blockchain := peer, store := .parsed peer.to_dict },
         ⟨true, "Synced! Same length but different content", some peer.len⟩)) ∧
    (peer.len < st.blockchain.len →
      IPFSFileManager.sync_from_peer sha st (.fetched peer.to_dict) =
        (st, ⟨true, "No update needed. Peer has fewer blocks (" ++ toString peer.len ++
          " vs " ++ toString st.blockchain.len ++ ")", some st.blockchain.len⟩)) ∧
    (peer.len = st.blockchain.len →
      peer.get_latest_block.hash = st.blockchain.get_latest_block.hash →
      IPFSFileManager.sync_from_peer sha st (.fetched peer.to_dict) =
        (st, ⟨true, "No update needed. Blockchains are identical",
          some st.blockchain.len⟩)) := by
  have hfd := blockchain_from_to_dict sha peer
  have hpl := getLast?_eq_getLastD peer.chain (by
    intro hnil
    exact hp (by rw [hnil]; rfl))
  have hll := getLast?_eq_getLastD st.blockchain.chain (by
    intro hnil
    exact hl (by rw [hnil]; rfl))
  refine ⟨?_, ?_, ?_, ?_⟩
  · intro hlt
    unfold IPFSFileManager.sync_from_peer
    simp only [hfd]
    rw [if_neg (by simp [hvalid]), if_pos hlt]
    rfl
  · intro heq hne
    have hne2 : (peer.chain.getLastD dummyBlock).hash ≠
        (st.blockchain.chain.getLastD dummyBlock).hash := hne
    unfold IPFSFileManager.sync_from_peer
    simp only [hfd]
    rw [if_neg (by simp [hvalid]), if_neg (by omega), if_pos heq]
    simp only [hpl, hll]
    rw [if_pos hne2]
    rfl
  · intro hlt
    unfold IPFSFileManager.sync_from_peer
    simp only [hfd]
    rw [if_neg (by simp [hvalid]), if_neg (by omega), if_neg (by omega)]
  · intro heq hsame
    have hsame2 : (peer.chain.getLastD dummyBlock).hash =
        (st.blockchain.chain.getLastD dummyBlock).hash := hsame
    unfold IPFSFileManager.sync_from_peer
    simp only [hfd]
    rw [if_neg (by simp [hvalid]), if_neg (by omega), if_pos heq]
    simp only [hpl, hll]
    rw [if_neg (not_not_intro hsame2)]

/-- C6: when the fetched peer ledger fails validation, or any resolution,
transport or parsing error occurs, sync returns a failure result carrying
the triggering reason, and the local state — the in-memory ledger and the
persisted store alike — is left unchanged. -/
theorem c6_failure_leaves_state (sha : HashInput → String) (st : NodeState)
    (input : SyncFetch)
    (h : (∃ m, input = .resolveErr m) ∨ (∃ m, input = .fetchErr m) ∨
      (∃ m, input = .parseErr m) ∨
      (∃ doc e, input = .fetched doc ∧ Blockchain.from_dict sha doc = .error e) ∨
      (∃ doc peer, input = .fetched doc ∧ Blockchain.from_dict sha doc = .ok peer ∧
        peer.is_chain_valid sha = false)) :
    (IPFSFileManager.sync_from_peer sha st input).1 = st ∧
    (IPFSFileManager.sync_from_peer sha st input).2.success = false ∧
    (IPFSFileManager.sync_from_peer sha st input).2.message = syncFailureMsg sha input := by
  rcases h with ⟨m, rfl⟩ | ⟨m, rfl⟩ | ⟨m, rfl⟩ | ⟨doc, e, rfl, herr⟩ |
    ⟨doc, peer, rfl, hok, hbad⟩
  · exact ⟨rfl, rfl, rfl⟩
  · exact ⟨rfl, rfl, rfl⟩
  · exact ⟨rfl, rfl, rfl⟩
  · unfold IPFSFileManager.sync_from_peer syncFailureMsg
    simp [herr]
  · unfold IPFSFileManager.sync_from_peer syncFailureMsg
    simp [hok, hbad]

/-- C9: two entries constructed with the same position, timestamp and
previous_hash (both starting from the constructor's nonce 0) over
logically identical payloads — same keys and values, nested mappings
included, inserted in different orders — get identical recomputed digests
and identical stored hash fields. -/
theorem c9_digest_determinism (sha : HashInput → String) (index timestamp : Int)
    (previous_hash : String) (p1 p2 : JValue) (h : JEquiv p1 p2) :
    Block.calculate_hash sha (Block.init sha index timestamp p1 previous_hash) =
      Block.calculate_hash sha (Block.init sha index timestamp p2 previous_hash) ∧
    (Block.init sha index timestamp p1 previous_hash).hash =
      (Block.init sha index timestamp p2 previous_hash).hash := by
  have hcan : canonJ p1 = canonJ p2 := jequiv_canon h
  constructor
  · show sha ⟨index, timestamp, canonJ p1, previous_hash, 0⟩ =
      sha ⟨index, timestamp, canonJ p2, previous_hash, 0⟩
    rw [hcan]
  · show sha ⟨index, timestamp, canonJ p1, previous_hash, 0⟩ =
      sha ⟨index, timestamp, canonJ p2, previous_hash, 0⟩
    rw [hcan]

theorem c3_remove_relinks_witness :
    bcW3.is_chain_valid shaB = true ∧ 0 < 1 ∧ 1 < bcW3.chain.length ∧
    ((bcW3.remove_block shaB ((1 : Nat) : Int)).2 = true ∧
     (bcW3.remove_block shaB ((1 : Nat) : Int)).1.chain.length = bcW3.chain.length - 1 ∧
     (∀ i, 1 ≤ i → i < (bcW3.remove_block shaB ((1 : Nat) : Int)).1.chain.length →
       ((bcW3.remove_block shaB ((1 : Nat) : Int)).1.chain.getD i dummyBlock).index =
         (i : Int) ∧
       ((bcW3.remove_block shaB ((1 : Nat) : Int)).1.chain.getD i dummyBlock).previous_hash =
         ((bcW3.remove_block shaB ((1 : Nat) : Int)).1.chain.getD (i - 1) dummyBlock).hash ∧
       ((bcW3.remove_block shaB ((1 : Nat) : Int)).1.chain.getD i dummyBlock).hash =
         Block.calculate_hash shaB
           ((bcW3.remove_block shaB ((1 : Nat) : Int)).1.chain.getD i dummyBlock)) ∧
     (bcW3.remove_block shaB ((1 : Nat) : Int)).1.is_chain_valid shaB = true) :=
  ⟨by decide, by decide, by decide,
   c3_remove_relinks shaB bcW3 1 (by decide) (by decide) (by decide)⟩

theorem c5_tamper_first_violation_witness :
    bcW5.is_chain_valid shaN = true ∧ 0 < 1 ∧ 1 < bcW5.chain.length ∧
    (5 : Int) ≠ (bcW5.chain.getD 1 dummyBlock).nonce ∧
    Block.calculate_hash shaN
        (FieldMut.apply (.mNonce 5) (bcW5.chain.getD 1 dummyBlock)) ≠
      Block.calculate_hash shaN (bcW5.chain.getD 1 dummyBlock) ∧
    (Blockchain.firstViolation shaN { bcW5 with chain := (bcW5.chain.set 1 (FieldMut.apply (.mNonce 5) (bcW5.chain.getD 1 dummyBlock))) } = some (1, .tampered) ∧
     Blockchain.is_chain_valid shaN { bcW5 with chain := (bcW5.chain.set 1 (FieldMut.apply (.mNonce 5) (bcW5.chain.getD 1 dummyBlock))) } = false) :=
  ⟨by decide, by decide, by decide, by decide, by decide,
   c5_tamper_first_violation shaN bcW5 1 (.mNonce 5) (by decide) (by decide) (by decide)
     (by show (5 : Int) ≠ (bcW5.chain.getD 1 dummyBlock).nonce; decide)
     (by show Block.calculate_hash shaN
           (FieldMut.apply (.mNonce 5) (bcW5.chain.getD 1 dummyBlock)) ≠
         Block.calculate_hash shaN (bcW5.chain.getD 1 dummyBlock); decide)⟩

theorem c2_reconciliation_policy_witness :
    peerW.is_chain_valid shaB = true ∧ peerW.chain.length ≠ 0 ∧
    stW.blockchain.chain.length ≠ 0 ∧ stW.blockchain.len < peerW.len ∧
    IPFSFileManager.sync_from_peer shaB stW (.fetched peerW.to_dict) =
      ({ blockchain := peerW, store := .parsed peerW.to_dict },
       ⟨true, "Synced! Peer has more blocks (" ++ toString peerW.len ++ " vs " ++
         toString stW.blockchain.len ++ ")", some peerW.len⟩) :=
  ⟨by decide, by decide, by decide, by decide,
   (c2_reconciliation_policy shaB stW peerW (by decide) (by decide) (by decide)).1
     (by decide)⟩

theorem c6_failure_leaves_state_witness :
    Blockchain.from_dict shaB tamperedW.to_dict = .ok tamperedW ∧
    tamperedW.is_chain_valid shaB = false ∧
    ((IPFSFileManager.sync_from_peer shaB stW (.fetched tamperedW.to_dict)).1 = stW ∧
     (IPFSFileManager.sync_from_peer shaB stW (.fetched tamperedW.to_dict)).2.success = false ∧
     (IPFSFileManager.sync_from_peer shaB stW (.fetched tamperedW.to_dict)).2.message =
       syncFailureMsg shaB (.fetched tamperedW.to_dict)) :=
  ⟨blockchain_from_to_dict shaB tamperedW, by decide,
   c6_failure_leaves_state shaB stW (.fetched tamperedW.to_dict)
     (Or.inr (Or.inr (Or.inr (Or.inr ⟨tamperedW.to_dict, tamperedW, rfl,
       blockchain_from_to_dict shaB tamperedW, by decide⟩))))⟩

theorem c9_digest_determinism_witness :
    JEquiv p1W p2W ∧
    (Block.init shaB 1 2 p1W "0").hash = (Block.init shaB 1 2 p2W "0").hash := by
  have h : JEquiv p1W p2W :=
    JEquiv.obj
      (KVEquiv.trans
        (KVEquiv.cons "a" (JEquiv.refl _)
          (KVEquiv.cons "b"
            (JEquiv.obj (KVEquiv.swap "x" "y" (.jint 2) (.jint 3) []) (by decide))
            KVEquiv.nil))
        (KVEquiv.swap "a" "b" (.jint 1) (.jobj [("y", .jint 3), ("x", .jint 2)]) []))
      (by decide)
  exact ⟨h, (c9_digest_determinism shaB 1 2 "0" p1W p2W h).2⟩
